import Mathlib

/-!
Shallow embedding of the QR-Code-Maker repository (src/src/qr_code_maker.py)
and proofs about its specification.

The Python source is modelled over `List Char` / `String`:
Python `str` methods (`strip`, `rstrip`, `isalnum`) and the standard-library
`textwrap` module are translated for the ASCII range; machine integers are
`Nat`/`Int`.
-/

namespace QRMaker

/-- The six characters of Python's `string.whitespace`, which is exactly the
set replaced by `textwrap`'s whitespace munging and stripped by `str.strip` /
`str.rstrip` (ASCII range). -/
def isSpaceCh (c : Char) : Bool :=
  c == ' ' || c == '\t' || c == '\n' || c == '\x0b' || c == '\x0c' || c == '\r'

/-- Python `str.isalnum`, modelled on the ASCII range. -/
def isAlnumPy (c : Char) : Bool := c.isAlphanum

/-- The character filter of `clean_filename` (qr_code_maker.py line 16):
`c.isalnum() or c in (' ', '_', '-')`. -/
def allowedFilenameChar (c : Char) : Bool :=
  isAlnumPy c || c == ' ' || c == '_' || c == '-'

/-- Python `str.rstrip()` on a list of characters. -/
def pyRstrip (l : List Char) : List Char :=
  (l.reverse.dropWhile isSpaceCh).reverse

/-- Python `str.strip()`: leading and trailing whitespace removed. -/
def pyStripL (l : List Char) : List Char :=
  pyRstrip (l.dropWhile isSpaceCh)

/-- Python `str.strip()` on `String`. -/
def pyStrip (s : String) : String :=
  String.mk (pyStripL s.data)

/-- `clean_filename` (qr_code_maker.py lines 12-16):
keep alphanumerics, spaces, underscores and hyphens, then `rstrip()`. -/
def clean_filename (text : String) : String :=
  String.mk (pyRstrip (text.data.filter allowedFilenameChar))

/-- True when the first character of the string is whitespace. -/
def hasLeadingWS (s : String) : Bool :=
  match s.data.head? with
  | some c => isSpaceCh c
  | none => false

/-- True when the last character of the string is whitespace. -/
def hasTrailingWS (s : String) : Bool :=
  match s.data.getLast? with
  | some c => isSpaceCh c
  | none => false

/-! ## QR encoder adapter (`create_qr_code`, lines 62-74) -/

/-- The error raised by the encoding library on an unencodable payload
(spec §7 calls it `EncodingError`; the repository's test suite expects the
library's `ValueError` on an empty payload). -/
inductive EncodingError where
  | emptyPayload
  deriving DecidableEq

/-- A bitmap produced by the encoder: pixel width and height. -/
structure QRImage where
  width : Nat
  height : Nat
  deriving DecidableEq

/-- Modelled from the spec: the QR matrix generation is delegated to the
third-party `segno` library, whose source is not part of this repository.
Per spec §4.1 ("Fails with an `EncodingError` when given an empty or
otherwise unencodable payload") and the repository's own test
`test_create_qr_code_empty_url` (which expects an exception from
`create_qr_code("", 1000)`), `segno.make` rejects the empty payload; for an
encodable payload it yields a symbol whose native pixel width at scale 1
(`qr.symbol_size(scale=1)`, quiet zone included) is given by the abstract
per-payload size function `symbolWidth`. -/
def segno_make (symbolWidth : String → Nat) (url : String) :
    Except EncodingError Nat :=
  if url = "" then Except.error EncodingError.emptyPayload
  else Except.ok (symbolWidth url)

/-- The integer upscaling factor of `create_qr_code` (lines 68-69):
`scale = qr_size // width; scale = max(scale, 1)`. -/
def qrScale (qr_size width : Nat) : Nat :=
  max (qr_size / width) 1

/-- `create_qr_code` (lines 62-74): make the symbol, compute the integer
scale, and save at that scale (output pixels = scale × native size; the
`border=4` passed to `save` equals the default quiet zone already counted in
`symbol_size(scale=1)`). -/
def create_qr_code (symbolWidth : String → Nat) (url : String)
    (qr_size : Nat := 2000) : Except EncodingError QRImage :=
  match segno_make symbolWidth url with
  | Except.error e => Except.error e
  | Except.ok w =>
      let scale := qrScale qr_size w
      Except.ok ⟨scale * w, scale * w⟩

/-! ## Fonts (`get_font`, lines 30-47) -/

/-- A loaded font: `getbbox` returns `(x0, y0, x1, y1)` for a line of text,
as PIL's `font.getbbox` does. -/
structure Font where
  getbbox : String → Int × Int × Int × Int

/-- The environment `get_font` runs in: the default system font
(`ImageFont.load_default()`, which ignores any requested size), the
filesystem (`os.path.exists`), and the truetype loader
(`ImageFont.truetype`, `none` standing for a raised `IOError`). -/
structure FontEnv where
  defaultFont : Font
  pathExists : String → Bool
  truetype : String → Nat → Option Font

/-- `get_font` (lines 30-47): default font when no path is given, when the
path does not exist, or when loading fails. -/
def get_font (env : FontEnv) (fontPath : Option String) (fontSize : Nat) :
    Font :=
  match fontPath with
  | none => env.defaultFont
  | some p =>
      if env.pathExists p = false then env.defaultFont
      else
        match env.truetype p fontSize with
        | some f => f
        | none => env.defaultFont

/-- `bbox[2] - bbox[0]`: the measured pixel width of a line (line 153). -/
def lineWidth (f : Font) (line : String) : Int :=
  (f.getbbox line).2.2.1 - (f.getbbox line).1

/-- `bbox[3] - bbox[1]`: the measured pixel height of a line (line 170). -/
def lineHeight (f : Font) (line : String) : Int :=
  (f.getbbox line).2.2.2 - (f.getbbox line).2.1

/-! ## Page-composition constants (`create_full_page_image`, lines 77-99) -/

/-- `side_margin = 300` (line 88). -/
def side_margin : Nat := 300

/-- `top_margin = 300` (line 87). -/
def top_margin : Nat := 300

/-- `title_font_size = 150` (line 91). -/
def title_font_size : Nat := 150

/-- `url_font_size = 80` (line 92): the starting size of the shrink loop. -/
def url_font_size : Nat := 80

/-- The 40pt floor of the shrink loop (lines 154 and 157). -/
def url_min_font_size : Nat := 40

/-- `max_text_width = page_size[0] - 2 * side_margin` (line 97). -/
def max_text_width (pageWidth : Nat) : Int :=
  (pageWidth : Int) - 2 * (side_margin : Int)

/-! ## Python `textwrap` (stdlib, CPython), with the default settings used by
`textwrap.TextWrapper(width=30)` (line 98) and `TextWrapper(width=60)`
(line 143): `expand_tabs=True`, `tabsize=8`, `replace_whitespace=True`,
`drop_whitespace=True`, `break_long_words=True`, `break_on_hyphens=True`,
empty indents, `max_lines=None`, modelled on the ASCII range. -/

/-- `str.expandtabs(8)`; `r` is the current column modulo 8 (only the
remainder matters; `\n` and `\r` reset the column). -/
def expandtabsAux : List Char → Nat → List Char
  | [], _ => []
  | c :: rest, r =>
      if c = '\t' then
        List.replicate (8 - r % 8) ' ' ++ expandtabsAux rest 0
      else if c = '\n' ∨ c = '\r' then c :: expandtabsAux rest 0
      else c :: expandtabsAux rest ((r + 1) % 8)

/-- `TextWrapper._munge_whitespace`: expand tabs, then map each whitespace
character to a plain space. -/
def munge (l : List Char) : List Char :=
  (expandtabsAux l 0).map (fun c => if isSpaceCh c then ' ' else c)

/-- `\w` of the `wordsep_re` regex (ASCII). -/
def isWordCh (c : Char) : Bool := c.isAlphanum || c == '_'

/-- `[^\d\W]` of `wordsep_re`: a word character that is not a digit. -/
def isLetterCh (c : Char) : Bool := c.isAlpha || c == '_'

/-- `[\w!"\'&.,?]` of `wordsep_re`: characters a word may end in right
before an em-dash. -/
def isWordEndPunct (c : Char) : Bool :=
  isWordCh c || c == '!' || c == '"' || c == '\'' || c == '&' ||
  c == '.' || c == ',' || c == '?'

/-- Test the character at index `i`, false when out of bounds. -/
def testAt (s : List Char) (i : Nat) (p : Char → Bool) : Bool :=
  match s.get? i with
  | some c => p c
  | none => false

/-- Length of the maximal run of whitespace starting at `i`. -/
def spaceRunFrom (s : List Char) (i : Nat) : Nat :=
  ((s.drop i).takeWhile isSpaceCh).length

/-- Length of the maximal run of hyphens starting at `i`. -/
def hyphenRunFrom (s : List Char) (i : Nat) : Nat :=
  ((s.drop i).takeWhile (fun c => c == '-')).length

/-- The em-dash alternative `(?<=[\w!"\'&.,?])-{2,}(?=\w)` of `wordsep_re`
matches at `i`: a run of two or more hyphens preceded by a word-ending
character and followed by a word character (the greedy `-{2,}` can only
succeed on the full run, since a shortened run is followed by another
hyphen). -/
def emDashChunkAt (s : List Char) (i : Nat) : Bool :=
  testAt s i (fun c => c == '-') && decide (1 ≤ i) &&
  testAt s (i - 1) isWordEndPunct &&
  decide (2 ≤ hyphenRunFrom s i) &&
  testAt s (i + hyphenRunFrom s i) isWordCh

/-- The hyphen-break lookbehind of `wordsep_re`,
`(?<=[^\d\W]{2}-)|(?<=[^\d\W]-[^\d\W]-)`, for the hyphen at index `j`. -/
def hyphLookbehind (s : List Char) (j : Nat) : Bool :=
  (decide (2 ≤ j) && testAt s (j - 2) isLetterCh &&
    testAt s (j - 1) isLetterCh) ||
  (decide (3 ≤ j) && testAt s (j - 3) isLetterCh &&
    testAt s (j - 2) (fun c => c == '-') && testAt s (j - 1) isLetterCh)

/-- The hyphen-break lookahead `(?=[^\d\W]-?[^\d\W])` at index `e`. -/
def hyphLookahead (s : List Char) (e : Nat) : Bool :=
  testAt s e isLetterCh &&
  (testAt s (e + 1) isLetterCh ||
    (testAt s (e + 1) (fun c => c == '-') && testAt s (e + 2) isLetterCh))

/-- The em-dash lookahead `(?=-{2,}\w)` at index `e`. -/
def emDashAhead (s : List Char) (e : Nat) : Bool :=
  decide (2 ≤ hyphenRunFrom s e) &&
  testAt s (e + hyphenRunFrom s e) isWordCh

/-- End position (exclusive) of the word alternative
`\S+?(?:-(?:lookbehind)(?=lookahead)|(?=\s|\Z)|(?<=[\w!"\'\&.,?])(?=-{2,}\w))`
of `wordsep_re` for the word starting at `i`, after lazily consuming `l ≥ 1`
characters: the alternatives are tried at each length in pattern order.
The fuel only bounds the search; it is spent one unit per extra consumed
character, so `s.length` is always enough. -/
def findWordEnd (s : List Char) (i : Nat) : Nat → Nat → Nat
  | 0, _ => s.length
  | fuel + 1, l =>
      if s.length ≤ i + l then s.length
      else if testAt s (i + l) (fun c => c == '-') &&
          hyphLookbehind s (i + l) && hyphLookahead s (i + l + 1) then
        i + l + 1
      else if testAt s (i + l) isSpaceCh then i + l
      else if testAt s (i + l - 1) isWordEndPunct && emDashAhead s (i + l)
          then i + l
      else findWordEnd s i fuel (l + 1)

/-- `TextWrapper._split`: scan the munged text left to right, emitting
whitespace chunks, em-dash chunks and word chunks as `wordsep_re` does.
Every alternative consumes at least one character, so `s.length` fuel is
always enough. -/
def splitChunksAux (s : List Char) : Nat → Nat → List (List Char)
  | 0, _ => []
  | fuel + 1, i =>
      if s.length ≤ i then []
      else if testAt s i isSpaceCh then
        let k := spaceRunFrom s i
        ((s.drop i).take k) :: splitChunksAux s fuel (i + k)
      else if emDashChunkAt s i then
        let k := hyphenRunFrom s i
        ((s.drop i).take k) :: splitChunksAux s fuel (i + k)
      else
        let e := findWordEnd s i s.length 1
        ((s.drop i).take (e - i)) :: splitChunksAux s fuel e

/-- `TextWrapper._split` applied to a whole munged text. -/
def pySplit (s : List Char) : List (List Char) :=
  splitChunksAux s s.length 0

/-- Sum of the lengths of a list of chunks. -/
def sumLen (cs : List (List Char)) : Nat :=
  (cs.map List.length).sum

/-- A chunk that Python's `chunk.strip() == ''` classifies as whitespace. -/
def chunkIsWS (c : List Char) : Bool := c.all isSpaceCh

/-- `str.rfind('-', 0, hi)`: the largest index `j < hi` holding a hyphen. -/
def rfindHyphen (c : List Char) (hi : Nat) : Option Nat :=
  (List.range (min hi c.length)).reverse.find?
    (fun j => testAt c j (fun ch => ch == '-'))

/-- `space_left` of `TextWrapper._handle_long_word`: `width - cur_len`,
or 1 when `width < 1`. -/
def longWordSpaceLeft (w curLen : Nat) : Nat :=
  if w < 1 then 1 else w - curLen

/-- The split point of `TextWrapper._handle_long_word`: at most
`space_left` characters, moved to just after the last hyphen available in
that window when the chunk has a usable hyphen break
(`break_on_hyphens`). -/
def longWordEnd (w curLen : Nat) (chunk : List Char) : Nat :=
  if longWordSpaceLeft w curLen < chunk.length then
    match rfindHyphen chunk (longWordSpaceLeft w curLen) with
    | some h =>
        if h ≠ 0 ∧ (chunk.take h).any (fun c => !(c == '-')) then h + 1
        else longWordSpaceLeft w curLen
    | none => longWordSpaceLeft w curLen
  else longWordSpaceLeft w curLen

/-- The greedy inner loop of `TextWrapper._wrap_chunks`: accumulate chunks
onto the current line while `cur_len + len(chunk) <= width`; returns the
line's chunks and the remaining chunks. -/
def fillLine (w : Nat) : List (List Char) → Nat →
    List (List Char) × List (List Char)
  | [], _ => ([], [])
  | c :: rest, curLen =>
      if curLen + c.length ≤ w then
        let r := fillLine w rest (curLen + c.length)
        (c :: r.1, r.2)
      else ([], c :: rest)

/-- The long-word step of `_wrap_chunks`: when the next remaining chunk is
longer than the width, break it and put the head piece on the line. -/
def afterLongWord (w : Nat) (st : List (List Char) × List (List Char)) :
    List (List Char) × List (List Char) :=
  match st.2 with
  | [] => (st.1, [])
  | c :: rest =>
      if w < c.length then
        let e := longWordEnd w (sumLen st.1) c
        (st.1 ++ [c.take e], c.drop e :: rest)
      else (st.1, c :: rest)

/-- The trailing-whitespace drop of `_wrap_chunks` (`drop_whitespace`):
remove the last chunk of the line when it is whitespace. -/
def dropTrailingWS (st : List (List Char) × List (List Char)) :
    List (List Char) × List (List Char) :=
  match st.1.getLast? with
  | some last => if chunkIsWS last then (st.1.dropLast, st.2) else st
  | none => st

/-- One iteration of the outer loop of `_wrap_chunks` (after the
leading-whitespace drop): build one line, returning its chunks and the
remaining chunks. -/
def buildLine (w : Nat) (chunks : List (List Char)) :
    List (List Char) × List (List Char) :=
  dropTrailingWS (afterLongWord w (fillLine w chunks 0))

/-- Fuel-based measure of a chunk list: total characters plus chunk count.
Each outer iteration of `_wrap_chunks` strictly decreases it, so
`chunksMeasure + 1` fuel always suffices. -/
def chunksMeasure (cs : List (List Char)) : Nat :=
  (cs.map (fun c => c.length + 1)).sum

/-- The outer loop of `TextWrapper._wrap_chunks`: per iteration, drop one
leading whitespace chunk when a line has already been emitted, build a line
greedily, break a too-long head chunk, drop a trailing whitespace chunk,
and emit the line when nonempty. -/
def wrapChunksAux (w : Nat) : Nat → List (List Char) → Bool →
    List (List Char)
  | 0, _, _ => []
  | _ + 1, [], _ => []
  | fuel + 1, c0 :: rest, hasLines =>
      let chunks1 := if hasLines && chunkIsWS c0 then rest else c0 :: rest
      match chunks1 with
      | [] => []
      | c1 :: rest1 =>
          let st := buildLine w (c1 :: rest1)
          if st.1.isEmpty then wrapChunksAux w fuel st.2 hasLines
          else st.1.flatten :: wrapChunksAux w fuel st.2 true

/-- `TextWrapper(width=w).wrap(text)` with the default settings: munge the
whitespace, split into chunks, and run the wrap loop. -/
def pyWrap (w : Nat) (text : String) : List String :=
  let chunks := pySplit (munge text.data)
  (wrapChunksAux w (chunksMeasure chunks + 1) chunks false).map
    (fun l => String.mk l)

/-- Non-whitespace character count: the quantity conserved by wrapping
(whitespace-only chunks are the only ones ever dropped). -/
def countNonWS (l : List Char) : Nat :=
  (l.filter (fun c => !(isSpaceCh c))).length

/-- Helper: a string with no whitespace characters at all, i.e. a single
word in the sense of "line breaks occur at whitespace boundaries". -/
def hasNoWhitespace (t : String) : Bool :=
  t.data.all (fun c => !(isSpaceCh c))

/-! ## The URL shrink-to-fit loop (`create_full_page_image`, lines 142-163) -/

/-- The `while True` loop of lines 148-160, returning the final font size
and the number of layout passes. Per pass: load the font at the current
size, re-wrap the URL at 60 characters (`wrapper.wrap(text=url)` is pure,
so re-wrapping yields the same lines), measure every wrapped line, and exit
when every line fits or the size is at the 40pt floor; otherwise decrement
the size by 2. The fuel is an embedding artifact: the size starts at 80 and
shrinks by 2 per pass, so any fuel with `fontSize < 40 + 2 * fuel` is never
exhausted (proved below). -/
def fitLoopFuel (env : FontEnv) (fontPath : Option String) (url : String)
    (maxW : Int) : Nat → Nat → Nat × Nat
  | 0, fontSize => (fontSize, 0)
  | fuel + 1, fontSize =>
      let font := get_font env fontPath fontSize
      let wrapped := pyWrap 60 url
      if (∀ line ∈ wrapped, ¬(lineWidth font line > maxW ∧ fontSize > 40)) ∨
          fontSize ≤ 40 then
        (fontSize, 1)
      else
        let r := fitLoopFuel env fontPath url maxW fuel (fontSize - 2)
        (r.1, r.2 + 1)

/-- The fitted URL block of spec §3 (`FittedTextBlock`). -/
structure FittedTextBlock where
  lines : List String
  lineHeights : List Int
  fontSize : Nat
  totalHeight : Int

/-- `fitURL` (spec §4.2): the state of the URL text after lines 142-173 of
`create_full_page_image`: wrapped lines at width 60, the font size found by
the shrink loop starting at `url_font_size = 80`, and the per-line heights
with a 10px gutter (the last gutter removed). -/
def fitURL (env : FontEnv) (fontPath : Option String) (url : String)
    (maxW : Int) : FittedTextBlock :=
  let fs := (fitLoopFuel env fontPath url maxW url_font_size
    url_font_size).1
  let font := get_font env fontPath fs
  let lines := pyWrap 60 url
  { lines := lines
    lineHeights := lines.map (fun l => lineHeight font l)
    fontSize := fs
    totalHeight := ((lines.map (fun l => lineHeight font l + 10)).sum) - 10 }

/-- The wrapped title of lines 96-99: `TextWrapper(width=30).wrap(title)`. -/
def wrapTitle (title : String) : List String :=
  pyWrap 30 title

/-! ## CSV batch processing (`process_csv`, lines 187-226) -/

/-- What `process_csv` does with one CSV row (lines 209-224): skip it when
it has fewer than 2 columns, skip it when its second column strips to the
empty string, otherwise compose a page and save it as
`clean_filename(title) + ".png"`. -/
inductive CsvEvent where
  | skippedShort (entry : List String)
  | skippedEmptyUrl (title : String)
  | composed (title url filename : String)
  deriving DecidableEq

/-- The per-row event trace of `process_csv` over the parsed CSV rows, in
file order. -/
def process_csv (entries : List (List String)) : List CsvEvent :=
  entries.map (fun entry =>
    if entry.length < 2 then CsvEvent.skippedShort entry
    else
      let title := pyStrip (entry.getD 0 "")
      let url := pyStrip (entry.getD 1 "")
      if url = "" then CsvEvent.skippedEmptyUrl title
      else CsvEvent.composed title url (clean_filename title ++ ".png"))

/-- The composition calls made by `process_csv`, in order: the
`(title, url)` arguments passed to `create_full_page_image`. -/
def composedPages (events : List CsvEvent) : List (String × String) :=
  events.filterMap (fun e =>
    match e with
    | CsvEvent.composed t u _ => some (t, u)
    | _ => none)

/-- Modelled from the spec's words (§6), for comparison with the code:
"Rows with fewer than 2 columns are skipped ...; rows with an empty URL
after trimming are skipped ...; rows are processed in file order" — the
valid rows, in order, as stripped (title, URL) pairs. -/
def specValidRows (entries : List (List String)) : List (String × String) :=
  (entries.filter (fun e =>
      decide (¬(e.length < 2) ∧ pyStrip (e.getD 1 "") ≠ ""))).map
    (fun e => (pyStrip (e.getD 0 ""), pyStrip (e.getD 1 "")))

/-! ## Concrete inputs used by witnesses -/

/-- A font environment on which every load falls back: no path exists and
every truetype load raises. The default font measures every line as the
zero box. -/
def wEnv : FontEnv where
  defaultFont := ⟨fun _ => (0, 0, 0, 0)⟩
  pathExists := fun _ => false
  truetype := fun _ _ => none

/-! ## Helper lemmas -/

theorem mem_of_mem_pyRstrip {c : Char} {l : List Char}
    (h : c ∈ pyRstrip l) : c ∈ l := by
  unfold pyRstrip at h
  rw [List.mem_reverse] at h
  have hs : List.Sublist (l.reverse.dropWhile isSpaceCh) l.reverse :=
    List.dropWhile_sublist isSpaceCh
  have := hs.subset h
  simpa [List.mem_reverse] using this

theorem head_dropWhile_false (p : Char → Bool) :
    ∀ (l : List Char) (c : Char), (l.dropWhile p).head? = some c →
      p c = false := by
  intro l
  induction l with
  | nil => intro c h; simp [List.dropWhile] at h
  | cons a as ih =>
      intro c h
      rw [List.dropWhile_cons] at h
      by_cases hp : p a
      · rw [if_pos hp] at h
        exact ih c h
      · rw [if_neg hp] at h
        simp only [List.head?_cons, Option.some.injEq] at h
        subst h
        simpa using hp

theorem pyRstrip_getLast_false {l : List Char} {c : Char}
    (h : (pyRstrip l).getLast? = some c) : isSpaceCh c = false := by
  unfold pyRstrip at h
  rw [List.getLast?_reverse] at h
  exact head_dropWhile_false isSpaceCh l.reverse c h

theorem pyRstrip_sublist (l : List Char) : List.Sublist (pyRstrip l) l := by
  unfold pyRstrip
  have hs : List.Sublist (l.reverse.dropWhile isSpaceCh) l.reverse :=
    List.dropWhile_sublist isSpaceCh
  simpa using hs.reverse

theorem pyStripL_sublist (l : List Char) : List.Sublist (pyStripL l) l := by
  unfold pyStripL
  exact (pyRstrip_sublist _).trans (List.dropWhile_sublist isSpaceCh)

theorem pyRstrip_eq_nil_of_all_ws {l : List Char}
    (h : l.all isSpaceCh = true) : pyRstrip l = [] := by
  unfold pyRstrip
  have : l.reverse.dropWhile isSpaceCh = [] := by
    rw [List.dropWhile_eq_nil_iff]
    intro x hx
    exact List.all_eq_true.mp h x (List.mem_reverse.mp hx)
  rw [this, List.reverse_nil]

theorem clean_filename_eq_empty {t : String}
    (h : (t.data.filter allowedFilenameChar).all isSpaceCh = true) :
    clean_filename t = "" := by
  unfold clean_filename
  rw [pyRstrip_eq_nil_of_all_ws h]

/-! ## Claim C3 -/

/-- Claim C3, counterexample: on the non-empty title `" a"` (a space
followed by a letter), `clean_filename` keeps the leading space — the code
only calls `rstrip()` — so the output has leading whitespace, refuting
"no leading and no trailing whitespace". -/
theorem clean_filename_leading_ws_cex :
    (" a" : String) ≠ "" ∧ clean_filename (" a") = " a" ∧
      hasLeadingWS (clean_filename (" a")) = true := by
  decide

/-- Claim C3 (amended): for every non-empty title string, the output of
`clean_filename` contains only alphanumeric characters, spaces, underscores
and hyphens, and has no trailing whitespace (leading whitespace may
remain, since the code strips only the right end). -/
theorem clean_filename_amended (t : String) (h : t ≠ "") :
    (clean_filename t).data.all allowedFilenameChar = true ∧
      hasTrailingWS (clean_filename t) = false := by
  constructor
  · rw [List.all_eq_true]
    intro c hc
    have hc' : c ∈ t.data.filter allowedFilenameChar :=
      mem_of_mem_pyRstrip hc
    exact List.of_mem_filter hc'
  · unfold hasTrailingWS
    cases hlast : (clean_filename t).data.getLast? with
    | none => rfl
    | some c =>
        exact pyRstrip_getLast_false hlast

/-- Claim C3, witness for the amended theorem at the concrete non-empty
title `"ab "`. -/
theorem clean_filename_amended_witness :
    ("ab " : String) ≠ "" ∧
      (clean_filename ("ab ")).data.all allowedFilenameChar = true ∧
      hasTrailingWS (clean_filename ("ab ")) = false :=
  ⟨by decide, (clean_filename_amended ("ab ") (by decide)).1,
    (clean_filename_amended ("ab ") (by decide)).2⟩

/-! ## Claim C5 -/

/-- Claim C5: for every target pixel size (and every native symbol-size
function), encoding the empty string fails with an `EncodingError` that
`create_qr_code` propagates to its caller instead of producing an image. -/
theorem create_qr_code_empty_payload (symbolWidth : String → Nat)
    (qr_size : Nat) :
    create_qr_code symbolWidth ("") qr_size =
      Except.error EncodingError.emptyPayload := by
  rfl

/-! ## Claim C6 -/

/-- Claim C6: for every URL and target pixel size, the integer upscaling
factor equals `targetPixelSize / nativeWidth` (floor division) when that
quotient is at least 1, equals 1 otherwise, and is always at least 1. -/
theorem qr_scale_floor (symbolWidth : String → Nat) (url : String)
    (qr_size : Nat) :
    (1 ≤ qr_size / symbolWidth url →
      qrScale qr_size (symbolWidth url) = qr_size / symbolWidth url) ∧
    (qr_size / symbolWidth url < 1 →
      qrScale qr_size (symbolWidth url) = 1) ∧
    1 ≤ qrScale qr_size (symbolWidth url) := by
  refine ⟨fun h => ?_, fun h => ?_, ?_⟩
  · exact Nat.max_eq_left h
  · have h0 : qr_size / symbolWidth url = 0 := Nat.lt_one_iff.mp h
    rw [qrScale, h0]
    simp
  · exact Nat.le_max_right _ 1

/-- Claim C6, witness: a native width of 29 pixels (a version-1 symbol with
its quiet zone) and a 2000-pixel target give the floor quotient 68. -/
theorem qr_scale_floor_witness :
    1 ≤ 2000 / 29 ∧ qrScale 2000 29 = 2000 / 29 ∧ 1 ≤ qrScale 2000 29 :=
  ⟨by decide,
    (qr_scale_floor (fun _ => 29) ("u") 2000).1 (by decide),
    (qr_scale_floor (fun _ => 29) ("u") 2000).2.2⟩

/-! ## Claim C7 -/

/-- Claim C7: for a fixed encodable URL, the pixel dimensions of the QR
image are monotonically non-decreasing in the target pixel size. -/
theorem qr_size_monotone (symbolWidth : String → Nat) (url : String)
    (n1 n2 : Nat) (i1 i2 : QRImage) (hn : n1 ≤ n2)
    (h1 : create_qr_code symbolWidth url n1 = Except.ok i1)
    (h2 : create_qr_code symbolWidth url n2 = Except.ok i2) :
    i1.width ≤ i2.width ∧ i1.height ≤ i2.height := by
  unfold create_qr_code segno_make at h1 h2
  by_cases hu : url = ""
  · rw [if_pos hu] at h1
    exact absurd h1 (by simp)
  · rw [if_neg hu] at h1 h2
    simp only [Except.ok.injEq] at h1 h2
    subst h1; subst h2
    have hscale : qrScale n1 (symbolWidth url) ≤
        qrScale n2 (symbolWidth url) :=
      max_le_max (Nat.div_le_div_right hn) le_rfl
    exact ⟨Nat.mul_le_mul_right _ hscale, Nat.mul_le_mul_right _ hscale⟩

/-- Claim C7, witness: with native width 29, targets 500 and 2000 give
493×493 and 1972×1972 pixel images, in that order. -/
theorem qr_size_monotone_witness :
    (⟨493, 493⟩ : QRImage).width ≤ (⟨1972, 1972⟩ : QRImage).width ∧
      (⟨493, 493⟩ : QRImage).height ≤ (⟨1972, 1972⟩ : QRImage).height :=
  qr_size_monotone (fun _ => 29) ("a") 500 2000 ⟨493, 493⟩ ⟨1972, 1972⟩
    (by decide) rfl rfl

/-! ## Claim C9 -/

/-- Claim C9: on every fallback path — no font path, a nonexistent path, or
a path whose truetype load always fails — `get_font` returns the default
font irrespective of the requested size; consequently the title font (150)
and the URL font (80) coincide, and the measured width of any line is the
same at any two font sizes, so the widths measured inside the shrink loop
never change as the size is decremented. -/
theorem get_font_fallback_constant (env : FontEnv)
    (fontPath : Option String)
    (h : fontPath = none ∨
      (∃ p, fontPath = some p ∧ env.pathExists p = false) ∨
      (∃ p, fontPath = some p ∧ ∀ s, env.truetype p s = none)) :
    (∀ s, get_font env fontPath s = env.defaultFont) ∧
    get_font env fontPath title_font_size =
      get_font env fontPath url_font_size ∧
    ∀ s1 s2 line, lineWidth (get_font env fontPath s1) line =
      lineWidth (get_font env fontPath s2) line := by
  have hall : ∀ s, get_font env fontPath s = env.defaultFont := by
    intro s
    rcases h with h | ⟨p, hp, hex⟩ | ⟨p, hp, htt⟩
    · rw [h]; rfl
    · rw [hp]
      simp only [get_font]
      rw [if_pos hex]
    · rw [hp]
      simp only [get_font]
      by_cases hex : env.pathExists p = false
      · rw [if_pos hex]
      · rw [if_neg hex, htt s]
  exact ⟨hall, by rw [hall, hall], fun s1 s2 line => by rw [hall, hall]⟩

/-- Claim C9, witness: in the environment where no path exists, loading
`"x"` at sizes 150 and 80 gives the same default font, and a line measures
the same width at sizes 80 and 42. -/
theorem get_font_fallback_constant_witness :
    get_font wEnv (some ("x")) title_font_size =
      get_font wEnv (some ("x")) url_font_size ∧
    lineWidth (get_font wEnv (some ("x")) 80) ("u") =
      lineWidth (get_font wEnv (some ("x")) 42) ("u") :=
  ⟨(get_font_fallback_constant wEnv (some ("x"))
      (Or.inr (Or.inl ⟨"x", rfl, rfl⟩))).2.1,
    (get_font_fallback_constant wEnv (some ("x"))
      (Or.inr (Or.inl ⟨"x", rfl, rfl⟩))).2.2 80 42 ("u")⟩

/-! ## Claim C10 -/

/-- Claim C10: a title whose characters are all outside the allowed set, or
whose sanitized form is only whitespace, gives `clean_filename = ""`; with
any valid URL, `process_csv` still composes the row and saves it under the
filename `".png"` instead of skipping it or failing. -/
theorem empty_filename_still_composed (title url : String)
    (h : title.data.all (fun c => !(allowedFilenameChar c)) = true ∨
      (title.data.filter allowedFilenameChar).all isSpaceCh = true)
    (hu : pyStrip url ≠ "") :
    clean_filename title = "" ∧
    process_csv [[title, url]] =
      [CsvEvent.composed (pyStrip title) (pyStrip url) (".png")] := by
  have hfilter : ∀ t' : String, List.Sublist t'.data title.data →
      (t'.data.filter allowedFilenameChar).all isSpaceCh = true := by
    intro t' hsub
    rcases h with h | h
    · have : t'.data.filter allowedFilenameChar = [] := by
        rw [List.filter_eq_nil_iff]
        intro a ha
        have := List.all_eq_true.mp h a (hsub.subset ha)
        simpa using this
      rw [this]; rfl
    · rw [List.all_eq_true]
      intro c hc
      have : c ∈ title.data.filter allowedFilenameChar :=
        (hsub.filter allowedFilenameChar).subset hc
      exact List.all_eq_true.mp h c this
  have hclean : clean_filename title = "" :=
    clean_filename_eq_empty (hfilter title (List.Sublist.refl _))
  have hcleanStrip : clean_filename (pyStrip title) = "" := by
    apply clean_filename_eq_empty
    exact hfilter (pyStrip title) (pyStripL_sublist title.data)
  refine ⟨hclean, ?_⟩
  have hstep : process_csv [[title, url]] =
      [if pyStrip url = "" then CsvEvent.skippedEmptyUrl (pyStrip title)
       else CsvEvent.composed (pyStrip title) (pyStrip url)
         (clean_filename (pyStrip title) ++ (".png" : String))] := rfl
  rw [hstep, if_neg hu, hcleanStrip]
  rfl

/-- Claim C10, witness: the all-punctuation title `"!!!"` with URL
`" http://x "` is still composed, with filename `".png"`. -/
theorem empty_filename_still_composed_witness :
    clean_filename ("!!!") = "" ∧
      process_csv [[("!!!" : String), (" http://x " : String)]] =
        [CsvEvent.composed ("!!!") ("http://x") (".png")] := by
  have h := empty_filename_still_composed ("!!!") (" http://x ")
    (Or.inl (by decide)) (by decide)
  exact ⟨h.1, h.2.trans (by decide)⟩

/-! ## Claim C4 -/

theorem composedPages_process_eq (entries : List (List String)) :
    composedPages (process_csv entries) = specValidRows entries := by
  induction entries with
  | nil => rfl
  | cons e es ih =>
      have hl : process_csv (e :: es) =
          (if e.length < 2 then CsvEvent.skippedShort e
           else if pyStrip (e.getD 1 "") = "" then
             CsvEvent.skippedEmptyUrl (pyStrip (e.getD 0 ""))
           else CsvEvent.composed (pyStrip (e.getD 0 ""))
             (pyStrip (e.getD 1 ""))
             (clean_filename (pyStrip (e.getD 0 "")) ++ (".png" : String)))
            :: process_csv es := rfl
      have hr : specValidRows (e :: es) =
          if ¬(e.length < 2) ∧ pyStrip (e.getD 1 "") ≠ "" then
            (pyStrip (e.getD 0 ""), pyStrip (e.getD 1 "")) ::
              specValidRows es
          else specValidRows es := by
        unfold specValidRows
        rw [List.filter_cons]
        simp only [decide_eq_true_eq]
        split
        · rw [List.map_cons]
        · rfl
      rw [hl, hr]
      by_cases h1 : e.length < 2
      · rw [if_pos h1, if_neg (by tauto)]
        simp only [composedPages, List.filterMap_cons] at ih ⊢
        exact ih
      · by_cases h2 : pyStrip (e.getD 1 "") = ""
        · rw [if_neg h1, if_pos h2, if_neg (by tauto)]
          simp only [composedPages, List.filterMap_cons] at ih ⊢
          exact ih
        · rw [if_neg h1, if_neg h2, if_pos ⟨h1, h2⟩]
          simp only [composedPages, List.filterMap_cons] at ih ⊢
          rw [ih]

/-- Claim C4: `process_csv` produces exactly one event per row; the
composition calls are exactly the rows with at least 2 columns and a
nonempty URL after trimming, in original file order (the characterization
`specValidRows` transcribes the spec's words); in particular, on 5 rows of
which one is short, one has a whitespace URL and three are valid, exactly 3
composition calls occur, in original row order. -/
theorem process_csv_valid_rows :
    (∀ entries : List (List String),
      (process_csv entries).length = entries.length ∧
      composedPages (process_csv entries) = specValidRows entries) ∧
    composedPages (process_csv
      [[("A" : String), ("u1" : String)], [("B" : String)],
       [("C" : String), ("u3" : String)],
       [("D" : String), ("   " : String)],
       [("E" : String), ("u5" : String)]]) =
      [(("A" : String), ("u1" : String)),
       (("C" : String), ("u3" : String)),
       (("E" : String), ("u5" : String))] := by
  refine ⟨fun entries => ⟨?_, composedPages_process_eq entries⟩, by decide⟩
  simp [process_csv]

/-! ## Claims C1 and C8: the shrink-to-fit loop -/

theorem fitLoopFuel_succ (env : FontEnv) (fontPath : Option String)
    (url : String) (maxW : Int) (fuel fs : Nat) :
    fitLoopFuel env fontPath url maxW (fuel + 1) fs =
      if (∀ line ∈ pyWrap 60 url,
          ¬(lineWidth (get_font env fontPath fs) line > maxW ∧ fs > 40)) ∨
          fs ≤ 40 then (fs, 1)
      else ((fitLoopFuel env fontPath url maxW fuel (fs - 2)).1,
            (fitLoopFuel env fontPath url maxW fuel (fs - 2)).2 + 1) := rfl

theorem fitLoop_master (env : FontEnv) (fontPath : Option String)
    (url : String) (maxW : Int) :
    ∀ fuel fs : Nat, 40 ≤ fs → fs % 2 = 0 → fs < 40 + 2 * fuel →
      40 ≤ (fitLoopFuel env fontPath url maxW fuel fs).1 ∧
      (fitLoopFuel env fontPath url maxW fuel fs).1 % 2 = 0 ∧
      1 ≤ (fitLoopFuel env fontPath url maxW fuel fs).2 ∧
      (fitLoopFuel env fontPath url maxW fuel fs).1 +
        2 * ((fitLoopFuel env fontPath url maxW fuel fs).2 - 1) = fs ∧
      ((∀ line ∈ pyWrap 60 url,
          lineWidth (get_font env fontPath
            (fitLoopFuel env fontPath url maxW fuel fs).1) line ≤ maxW) ∨
        (fitLoopFuel env fontPath url maxW fuel fs).1 = 40) := by
  intro fuel
  induction fuel with
  | zero => intro fs h40 _ hlt; omega
  | succ fuel ih =>
      intro fs h40 hpar hlt
      rw [fitLoopFuel_succ]
      by_cases hexit : (∀ line ∈ pyWrap 60 url,
          ¬(lineWidth (get_font env fontPath fs) line > maxW ∧ fs > 40)) ∨
          fs ≤ 40
      · rw [if_pos hexit]
        refine ⟨h40, hpar, le_refl 1, ?_, ?_⟩
        · show fs + 2 * (1 - 1) = fs
          omega
        · by_cases hfs : fs ≤ 40
          · right
            show fs = 40
            omega
          · left
            show ∀ line ∈ pyWrap 60 url,
              lineWidth (get_font env fontPath fs) line ≤ maxW
            intro line hline
            rcases hexit with hfit | hle
            · have h' := hfit line hline
              by_contra hw
              exact h' ⟨by omega, by omega⟩
            · exact absurd hle hfs
      · rw [if_neg hexit]
        push_neg at hexit
        have hfs : 40 < fs := hexit.2
        have h42 : 42 ≤ fs := by omega
        obtain ⟨ha, hb, hc, hd, he⟩ :=
          ih (fs - 2) (by omega) (by omega) (by omega)
        exact ⟨ha, hb, by omega, by omega, he⟩

/-- Claim C1: for every font environment, font path, URL and page width,
the shrink-to-fit loop ends in a state where either every wrapped URL
line's measured pixel width at the final font size is at most the content
width (page width minus two side margins), or the final font size equals
the 40pt floor. -/
theorem fitURL_fit_or_floor (env : FontEnv) (fontPath : Option String)
    (url : String) (pageWidth : Nat) :
    (∀ line ∈ (fitURL env fontPath url (max_text_width pageWidth)).lines,
      lineWidth (get_font env fontPath
          (fitURL env fontPath url (max_text_width pageWidth)).fontSize)
          line ≤ max_text_width pageWidth) ∨
    (fitURL env fontPath url (max_text_width pageWidth)).fontSize =
      url_min_font_size := by
  have h := fitLoop_master env fontPath url (max_text_width pageWidth)
    url_font_size url_font_size (by decide) (by decide) (by decide)
  exact h.2.2.2.2

theorem fitLoop_fuel_irrel (env : FontEnv) (fontPath : Option String)
    (url : String) (maxW : Int) :
    ∀ f1 f2 fs : Nat, 40 ≤ fs → fs % 2 = 0 → fs < 40 + 2 * f1 →
      fs < 40 + 2 * f2 →
      fitLoopFuel env fontPath url maxW f1 fs =
        fitLoopFuel env fontPath url maxW f2 fs := by
  intro f1
  induction f1 with
  | zero => intro f2 fs h40 _ h1 _; omega
  | succ f1 ih =>
      intro f2 fs h40 hpar h1 h2
      cases f2 with
      | zero => omega
      | succ f2 =>
          rw [fitLoopFuel_succ, fitLoopFuel_succ]
          by_cases hexit : (∀ line ∈ pyWrap 60 url,
              ¬(lineWidth (get_font env fontPath fs) line > maxW ∧
                fs > 40)) ∨ fs ≤ 40
          · rw [if_pos hexit, if_pos hexit]
          · rw [if_neg hexit, if_neg hexit]
            push_neg at hexit
            have hfs : 40 < fs := hexit.2
            rw [ih f2 (fs - 2) (by omega) (by omega) (by omega) (by omega)]

/-- Claim C8: the shrink-to-fit loop terminates: starting at 80pt it makes
between 1 and 21 layout passes, the final size is 80 minus 2 per failed
pass, it never goes below the 40pt floor, and any larger fuel bound gives
the same result (the pass count is genuinely bounded). -/
theorem fit_loop_terminates (env : FontEnv) (fontPath : Option String)
    (url : String) (pageWidth : Nat) :
    1 ≤ (fitLoopFuel env fontPath url (max_text_width pageWidth)
        url_font_size url_font_size).2 ∧
    (fitLoopFuel env fontPath url (max_text_width pageWidth)
        url_font_size url_font_size).2 ≤ 21 ∧
    (fitLoopFuel env fontPath url (max_text_width pageWidth)
        url_font_size url_font_size).1 =
      url_font_size - 2 * ((fitLoopFuel env fontPath url
        (max_text_width pageWidth) url_font_size url_font_size).2 - 1) ∧
    url_min_font_size ≤ (fitLoopFuel env fontPath url
        (max_text_width pageWidth) url_font_size url_font_size).1 ∧
    ∀ fuel, 21 ≤ fuel →
      fitLoopFuel env fontPath url (max_text_width pageWidth) fuel
          url_font_size =
        fitLoopFuel env fontPath url (max_text_width pageWidth)
          url_font_size url_font_size := by
  obtain ⟨ha, hb, hc, hd, he⟩ := fitLoop_master env fontPath url
    (max_text_width pageWidth) url_font_size url_font_size
    (by decide) (by decide) (by decide)
  simp only [url_font_size, url_min_font_size] at ha hb hc hd ⊢
  refine ⟨hc, by omega, by omega, ha, fun fuel hfuel => ?_⟩
  exact fitLoop_fuel_irrel env fontPath url (max_text_width pageWidth)
    fuel url_font_size url_font_size (by decide) (by decide)
    (by show (80 : Nat) < 40 + 2 * fuel; omega) (by decide)

/-- Claim C8, witness: in the concrete all-fallback environment with a
zero-width default font, the loop run on `"ab"` over a 2550-wide page makes
at most 21 passes and fuel 100 gives the same result as fuel 80. -/
theorem fit_loop_terminates_witness :
    (fitLoopFuel wEnv none ("ab") (max_text_width 2550)
        url_font_size url_font_size).2 ≤ 21 ∧
    fitLoopFuel wEnv none ("ab") (max_text_width 2550) 100 url_font_size =
      fitLoopFuel wEnv none ("ab") (max_text_width 2550)
        url_font_size url_font_size :=
  ⟨(fit_loop_terminates wEnv none ("ab") 2550).2.1,
    (fit_loop_terminates wEnv none ("ab") 2550).2.2.2.2 100 (by decide)⟩

/-- Claim C1, witness: the disjunction instantiated at the concrete
all-fallback environment, a one-word URL and the default page width. -/
theorem fitURL_fit_or_floor_witness :
    lineWidth (get_font wEnv none
        ((fitURL wEnv none ("u") (max_text_width 2550)).fontSize)) ("u") ≤
      max_text_width 2550 ∨
    (fitURL wEnv none ("u") (max_text_width 2550)).fontSize =
      url_min_font_size := by
  rcases fitURL_fit_or_floor wEnv none ("u") 2550 with h | h
  · exact Or.inl (h ("u") (by decide))
  · exact Or.inr h

/-! ## Claim C2: lemmas on the `textwrap` model -/

theorem findWordEnd_bounds (s : List Char) (i : Nat) :
    ∀ fuel l, i + l ≤ s.length →
      i + l ≤ findWordEnd s i fuel l ∧ findWordEnd s i fuel l ≤ s.length := by
  intro fuel
  induction fuel with
  | zero => intro l h; exact ⟨h, le_refl _⟩
  | succ fuel ih =>
      intro l h
      simp only [findWordEnd]
      split_ifs with h1 h2 h3 h4
      · exact ⟨h, le_refl _⟩
      · push_neg at h1
        exact ⟨Nat.le_succ_of_le (le_refl _), h1⟩
      · push_neg at h1
        exact ⟨le_refl _, le_of_lt h1⟩
      · push_neg at h1
        exact ⟨le_refl _, le_of_lt h1⟩
      · push_neg at h1
        have := ih (l + 1) (by omega)
        exact ⟨by omega, this.2⟩

theorem spaceRunFrom_pos {s : List Char} {i : Nat}
    (h : testAt s i isSpaceCh = true) : 1 ≤ spaceRunFrom s i := by
  unfold testAt at h
  cases hg : s.get? i with
  | none => rw [hg] at h; exact absurd h (by simp)
  | some c =>
      rw [hg] at h
      change isSpaceCh c = true at h
      have hlt : i < s.length := by
        by_contra hge
        rw [List.get?_eq_none.mpr (by omega)] at hg
        exact absurd hg (by simp)
      have hieq : s[i] = c := by
        have h1 : s[i]? = some c := by
          rw [← List.get?_eq_getElem?]
          exact hg
        have h2 : s[i]? = some s[i] := List.getElem?_eq_getElem hlt
        exact Option.some.inj (h2.symm.trans h1)
      have hdrop : s.drop i = c :: s.drop (i + 1) := by
        rw [List.drop_eq_getElem_cons hlt, hieq]
      unfold spaceRunFrom
      rw [hdrop, List.takeWhile_cons_of_pos h]
      simp

theorem splitChunksAux_flatten (s : List Char) :
    ∀ fuel i, s.length - i ≤ fuel →
      (splitChunksAux s fuel i).flatten = s.drop i := by
  intro fuel
  induction fuel with
  | zero =>
      intro i h
      simp only [splitChunksAux, List.flatten_nil]
      rw [List.drop_eq_nil_of_le (by omega)]
  | succ fuel ih =>
      intro i h
      simp only [splitChunksAux]
      split_ifs with h1 h2 h3
      · rw [List.flatten_nil, List.drop_eq_nil_of_le h1]
      · push_neg at h1
        have hk : 1 ≤ spaceRunFrom s i := spaceRunFrom_pos h2
        rw [List.flatten_cons, ih (i + spaceRunFrom s i) (by omega)]
        rw [show s.drop (i + spaceRunFrom s i) =
          (s.drop i).drop (spaceRunFrom s i) by rw [List.drop_drop]]
        exact List.take_append_drop _ _
      · push_neg at h1
        have hk : 2 ≤ hyphenRunFrom s i := by
          unfold emDashChunkAt at h3
          simp only [Bool.and_eq_true, decide_eq_true_eq] at h3
          exact h3.1.2
        rw [List.flatten_cons, ih (i + hyphenRunFrom s i) (by omega)]
        rw [show s.drop (i + hyphenRunFrom s i) =
          (s.drop i).drop (hyphenRunFrom s i) by rw [List.drop_drop]]
        exact List.take_append_drop _ _
      · push_neg at h1
        have hb := findWordEnd_bounds s i s.length 1 (by omega)
        rw [List.flatten_cons,
          ih (findWordEnd s i s.length 1) (by omega)]
        rw [show s.drop (findWordEnd s i s.length 1) =
          (s.drop i).drop (findWordEnd s i s.length 1 - i) by
            rw [List.drop_drop]; congr 1; omega]
        exact List.take_append_drop _ _

theorem pySplit_flatten (s : List Char) : (pySplit s).flatten = s := by
  unfold pySplit
  rw [splitChunksAux_flatten s s.length 0 (by omega), List.drop_zero]

theorem countNonWS_append (a b : List Char) :
    countNonWS (a ++ b) = countNonWS a + countNonWS b := by
  unfold countNonWS
  rw [List.filter_append, List.length_append]

theorem countNonWS_cons (c : Char) (l : List Char) :
    countNonWS (c :: l) =
      (if isSpaceCh c then 0 else 1) + countNonWS l := by
  unfold countNonWS
  rw [List.filter_cons]
  by_cases h : isSpaceCh c
  · simp [h]
  · simp [h]
    omega

theorem countNonWS_le_length (l : List Char) : countNonWS l ≤ l.length :=
  List.length_filter_le _ l

theorem countNonWS_eq_zero_of_ws {l : List Char}
    (h : chunkIsWS l = true) : countNonWS l = 0 := by
  unfold countNonWS
  have : l.filter (fun c => !(isSpaceCh c)) = [] := by
    rw [List.filter_eq_nil_iff]
    intro a ha
    have := List.all_eq_true.mp h a ha
    simp [this]
  rw [this]
  rfl

theorem countNonWS_replicate_space (n : Nat) :
    countNonWS (List.replicate n ' ') = 0 := by
  apply countNonWS_eq_zero_of_ws
  unfold chunkIsWS
  rw [List.all_eq_true]
  intro a ha
  rw [List.eq_of_mem_replicate ha]
  rfl

theorem expandtabsAux_countNonWS : ∀ (l : List Char) (r : Nat),
    countNonWS (expandtabsAux l r) = countNonWS l := by
  intro l
  induction l with
  | nil => intro r; rfl
  | cons c rest ih =>
      intro r
      simp only [expandtabsAux]
      split_ifs with h1 h2
      · rw [countNonWS_append, countNonWS_replicate_space, ih,
          countNonWS_cons]
        subst h1
        rw [if_pos (show isSpaceCh '\t' = true from rfl)]
      · rw [countNonWS_cons, countNonWS_cons, ih]
      · rw [countNonWS_cons, countNonWS_cons, ih]

theorem munge_countNonWS (l : List Char) :
    countNonWS (munge l) = countNonWS l := by
  unfold munge
  rw [← expandtabsAux_countNonWS l 0]
  generalize expandtabsAux l 0 = m
  induction m with
  | nil => rfl
  | cons c rest ih =>
      rw [List.map_cons, countNonWS_cons, countNonWS_cons, ih]
      by_cases h : isSpaceCh c = true
      · simp only [if_pos h]
        rfl
      · simp only [if_neg h]

theorem sumLen_cons (c : List Char) (cs : List (List Char)) :
    sumLen (c :: cs) = c.length + sumLen cs := by
  unfold sumLen
  rw [List.map_cons, List.sum_cons]

theorem sumLen_append (a b : List (List Char)) :
    sumLen (a ++ b) = sumLen a + sumLen b := by
  unfold sumLen
  rw [List.map_append, List.sum_append]

theorem chunksMeasure_cons (c : List Char) (cs : List (List Char)) :
    chunksMeasure (c :: cs) = c.length + 1 + chunksMeasure cs := by
  unfold chunksMeasure
  rw [List.map_cons, List.sum_cons]

theorem chunksMeasure_append (a b : List (List Char)) :
    chunksMeasure (a ++ b) = chunksMeasure a + chunksMeasure b := by
  unfold chunksMeasure
  rw [List.map_append, List.sum_append]

theorem fillLine_append (w : Nat) : ∀ (cs : List (List Char)) (l : Nat),
    (fillLine w cs l).1 ++ (fillLine w cs l).2 = cs := by
  intro cs
  induction cs with
  | nil => intro l; rfl
  | cons c rest ih =>
      intro l
      simp only [fillLine]
      split_ifs with h
      · simp only [List.cons_append, List.cons.injEq, true_and]
        exact ih (l + c.length)
      · rfl

theorem fillLine_sum (w : Nat) : ∀ (cs : List (List Char)) (l : Nat),
    l ≤ w → l + sumLen (fillLine w cs l).1 ≤ w := by
  intro cs
  induction cs with
  | nil =>
      intro l h
      simpa [fillLine, sumLen] using h
  | cons c rest ih =>
      intro l h
      simp only [fillLine]
      split_ifs with hfit
      · have := ih (l + c.length) hfit
        rw [sumLen_cons]
        omega
      · simpa [sumLen] using h

theorem fillLine_nil_head {w : Nat} {c : List Char}
    {rest : List (List Char)} {l : Nat}
    (h : (fillLine w (c :: rest) l).1 = []) : ¬(l + c.length ≤ w) := by
  intro hfit
  simp only [fillLine, if_pos hfit] at h
  exact List.cons_ne_nil _ _ h

theorem rfindHyphen_lt {c : List Char} {hi h : Nat}
    (hfind : rfindHyphen c hi = some h) : h < hi := by
  unfold rfindHyphen at hfind
  have hmem := List.mem_of_find?_eq_some hfind
  rw [List.mem_reverse, List.mem_range] at hmem
  omega

theorem longWordEnd_pos (w : Nat) (chunk : List Char) :
    1 ≤ longWordEnd w 0 chunk := by
  have hsl : 1 ≤ longWordSpaceLeft w 0 := by
    unfold longWordSpaceLeft
    split_ifs with h <;> omega
  unfold longWordEnd
  split_ifs with h1
  · cases hfind : rfindHyphen chunk (longWordSpaceLeft w 0) with
    | none => exact hsl
    | some h =>
        dsimp only
        split_ifs with h3
        · omega
        · exact hsl
  · exact hsl

theorem longWordEnd_le {w curLen : Nat} (chunk : List Char)
    (hc : curLen ≤ w) (hw : 1 ≤ w) :
    longWordEnd w curLen chunk ≤ w - curLen := by
  have hsl : longWordSpaceLeft w curLen = w - curLen := by
    unfold longWordSpaceLeft
    rw [if_neg (by omega)]
  unfold longWordEnd
  rw [hsl]
  split_ifs with h1
  · cases hfind : rfindHyphen chunk (w - curLen) with
    | none => exact le_refl _
    | some h =>
        have := rfindHyphen_lt hfind
        dsimp only
        split_ifs with h3
        · omega
        · exact le_refl _
  · exact le_refl _

theorem countNonWS_flatten_append (a b : List (List Char)) :
    countNonWS (a ++ b).flatten =
      countNonWS a.flatten + countNonWS b.flatten := by
  rw [List.flatten_append, countNonWS_append]

theorem countNonWS_flatten_cons (x : List Char) (L : List (List Char)) :
    countNonWS (x :: L).flatten = countNonWS x + countNonWS L.flatten := by
  rw [List.flatten_cons, countNonWS_append]

theorem dropLast_append_of_getLast? {α : Type _} (l : List α) (a : α)
    (h : l.getLast? = some a) : l.dropLast ++ [a] = l := by
  have hne : l ≠ [] := by
    intro he
    subst he
    simp at h
  have h2 : l.getLast? = some (l.getLast hne) := List.getLast?_eq_getLast l hne
  rw [h2] at h
  obtain rfl : a = l.getLast hne := (Option.some.inj h).symm
  exact List.dropLast_append_getLast hne

theorem afterLongWord_countNonWS (w : Nat)
    (st : List (List Char) × List (List Char)) :
    countNonWS (afterLongWord w st).1.flatten +
      countNonWS (afterLongWord w st).2.flatten =
      countNonWS st.1.flatten + countNonWS st.2.flatten := by
  unfold afterLongWord
  cases hst : st.2 with
  | nil => simp
  | cons c rest =>
      dsimp only
      split_ifs with h
      · have hc : countNonWS (c.take (longWordEnd w (sumLen st.1) c)) +
            countNonWS (c.drop (longWordEnd w (sumLen st.1) c)) =
            countNonWS c := by
          rw [← countNonWS_append, List.take_append_drop]
        rw [countNonWS_flatten_append, countNonWS_flatten_cons,
          countNonWS_flatten_cons, countNonWS_flatten_cons]
        simp only [List.flatten_nil, countNonWS_append]
        have hnil : countNonWS ([] : List Char) = 0 := rfl
        omega
      · rfl

theorem dropTrailingWS_countNonWS
    (st : List (List Char) × List (List Char)) :
    countNonWS (dropTrailingWS st).1.flatten +
      countNonWS (dropTrailingWS st).2.flatten =
      countNonWS st.1.flatten + countNonWS st.2.flatten := by
  unfold dropTrailingWS
  cases hlast : st.1.getLast? with
  | none => rfl
  | some last =>
      dsimp only
      split_ifs with h
      · dsimp only
        have hdec := dropLast_append_of_getLast? st.1 last hlast
        have hsplit : countNonWS st.1.flatten =
            countNonWS st.1.dropLast.flatten + countNonWS last := by
          conv_lhs => rw [← hdec]
          rw [countNonWS_flatten_append, countNonWS_flatten_cons]
          simp only [List.flatten_nil]
          have hnil : countNonWS ([] : List Char) = 0 := rfl
          omega
        have h0 : countNonWS last = 0 := countNonWS_eq_zero_of_ws h
        omega
      · rfl

theorem buildLine_countNonWS (w : Nat) (cs : List (List Char)) :
    countNonWS (buildLine w cs).1.flatten +
      countNonWS (buildLine w cs).2.flatten = countNonWS cs.flatten := by
  unfold buildLine
  have hsum0 : countNonWS (fillLine w cs 0).1.flatten +
      countNonWS (fillLine w cs 0).2.flatten = countNonWS cs.flatten := by
    rw [← countNonWS_flatten_append, fillLine_append]
  have hsum1 := afterLongWord_countNonWS w (fillLine w cs 0)
  have hsum2 := dropTrailingWS_countNonWS (afterLongWord w (fillLine w cs 0))
  omega

theorem sumLen_dropLast_of_getLast? (st : List (List Char))
    (last : List Char) (h : st.getLast? = some last) :
    sumLen st = sumLen st.dropLast + last.length := by
  conv_lhs => rw [← dropLast_append_of_getLast? st last h]
  rw [sumLen_append, sumLen_cons]
  have : sumLen ([] : List (List Char)) = 0 := rfl
  omega

theorem dropTrailingWS_sumLen_le
    (st : List (List Char) × List (List Char)) :
    sumLen (dropTrailingWS st).1 ≤ sumLen st.1 := by
  unfold dropTrailingWS
  cases hlast : st.1.getLast? with
  | none => exact le_refl _
  | some last =>
      dsimp only
      split_ifs with h
      · dsimp only
        have := sumLen_dropLast_of_getLast? st.1 last hlast
        omega
      · exact le_refl _

theorem afterLongWord_sumLen_le (w : Nat)
    (st : List (List Char) × List (List Char)) (h1 : 1 ≤ w)
    (h0 : sumLen st.1 ≤ w) : sumLen (afterLongWord w st).1 ≤ w := by
  unfold afterLongWord
  cases hst : st.2 with
  | nil => exact h0
  | cons c rest =>
      dsimp only
      split_ifs with h
      · rw [sumLen_append, sumLen_cons]
        have hle := @longWordEnd_le w (sumLen st.1) c h0 h1
        have htake : (c.take (longWordEnd w (sumLen st.1) c)).length ≤
            longWordEnd w (sumLen st.1) c := by
          rw [List.length_take]
          omega
        have : sumLen ([] : List (List Char)) = 0 := rfl
        omega
      · exact h0

theorem buildLine_sumLen_le (w : Nat) (cs : List (List Char))
    (h1 : 1 ≤ w) : sumLen (buildLine w cs).1 ≤ w := by
  unfold buildLine
  have h0 : sumLen (fillLine w cs 0).1 ≤ w := by
    have := fillLine_sum w cs 0 (by omega)
    omega
  exact le_trans (dropTrailingWS_sumLen_le _)
    (afterLongWord_sumLen_le w _ h1 h0)

theorem fillLine_measure (w : Nat) (cs : List (List Char)) (l : Nat) :
    chunksMeasure (fillLine w cs l).1 + chunksMeasure (fillLine w cs l).2 =
      chunksMeasure cs := by
  rw [← chunksMeasure_append, fillLine_append]

theorem afterLongWord_measure_le (w : Nat)
    (st : List (List Char) × List (List Char)) :
    chunksMeasure (afterLongWord w st).2 ≤ chunksMeasure st.2 := by
  unfold afterLongWord
  cases hst : st.2 with
  | nil => simp [chunksMeasure]
  | cons c rest =>
      dsimp only
      split_ifs with h
      · rw [chunksMeasure_cons, chunksMeasure_cons]
        have : (c.drop (longWordEnd w (sumLen st.1) c)).length ≤ c.length := by
          rw [List.length_drop]
          omega
        omega
      · exact le_refl _

theorem dropTrailingWS_snd (st : List (List Char) × List (List Char)) :
    (dropTrailingWS st).2 = st.2 := by
  unfold dropTrailingWS
  cases st.1.getLast? with
  | none => rfl
  | some last =>
      dsimp only
      split_ifs <;> rfl

theorem buildLine_measure_le (w : Nat) (cs : List (List Char)) :
    chunksMeasure (buildLine w cs).2 ≤ chunksMeasure cs := by
  unfold buildLine
  rw [dropTrailingWS_snd]
  have h1 := afterLongWord_measure_le w (fillLine w cs 0)
  have h2 := fillLine_measure w cs 0
  omega

theorem buildLine_measure_lt (w : Nat) (c : List Char)
    (rest : List (List Char)) :
    chunksMeasure (buildLine w (c :: rest)).2 <
      chunksMeasure (c :: rest) := by
  unfold buildLine
  rw [dropTrailingWS_snd]
  cases hfl : (fillLine w (c :: rest) 0).1 with
  | nil =>
      have hw : ¬(0 + c.length ≤ w) := fillLine_nil_head hfl
      have hst2 : (fillLine w (c :: rest) 0).2 = c :: rest := by
        have := fillLine_append w (c :: rest) 0
        rw [hfl] at this
        simpa using this
      have hpair : fillLine w (c :: rest) 0 = ([], c :: rest) := by
        rw [Prod.ext_iff]
        exact ⟨hfl, hst2⟩
      rw [hpair]
      have hkey : (afterLongWord w
          (([] : List (List Char)), c :: rest)).2 =
          c.drop (longWordEnd w 0 c) :: rest := by
        unfold afterLongWord
        dsimp only
        rw [if_pos (by omega : w < c.length)]
        rfl
      rw [hkey, chunksMeasure_cons, chunksMeasure_cons]
      have he := longWordEnd_pos w c
      have hd := List.length_drop (longWordEnd w 0 c) c
      omega
  | cons d ds =>
      have hm := fillLine_measure w (c :: rest) 0
      rw [hfl, chunksMeasure_cons] at hm
      have h1 := afterLongWord_measure_le w (fillLine w (c :: rest) 0)
      omega

theorem wrapChunksAux_cons (w fuel : Nat) (c0 : List Char)
    (rest : List (List Char)) (hasLines : Bool) :
    wrapChunksAux w (fuel + 1) (c0 :: rest) hasLines =
      match (if hasLines && chunkIsWS c0 then rest else c0 :: rest) with
      | [] => []
      | c1 :: rest1 =>
          if (buildLine w (c1 :: rest1)).1.isEmpty then
            wrapChunksAux w fuel (buildLine w (c1 :: rest1)).2 hasLines
          else
            (buildLine w (c1 :: rest1)).1.flatten ::
              wrapChunksAux w fuel (buildLine w (c1 :: rest1)).2 true := rfl

theorem flatten_length_eq_sumLen (L : List (List Char)) :
    L.flatten.length = sumLen L := by
  rw [List.length_flatten]
  rfl

theorem wrapChunksAux_lines_le (w : Nat) (hw : 1 ≤ w) :
    ∀ (fuel : Nat) (chunks : List (List Char)) (b : Bool),
      chunksMeasure chunks < fuel →
      ∀ line ∈ wrapChunksAux w fuel chunks b, line.length ≤ w := by
  intro fuel
  induction fuel with
  | zero => intro chunks b h; omega
  | succ fuel ih =>
      intro chunks b h
      cases chunks with
      | nil =>
          intro line hline
          simp [wrapChunksAux] at hline
      | cons c0 rest =>
          rw [wrapChunksAux_cons]
          have hstep : ∀ (c1 : List Char) (rest1 : List (List Char)),
              chunksMeasure (c1 :: rest1) ≤ chunksMeasure (c0 :: rest) →
              ∀ line ∈ (if (buildLine w (c1 :: rest1)).1.isEmpty then
                  wrapChunksAux w fuel (buildLine w (c1 :: rest1)).2 b
                else (buildLine w (c1 :: rest1)).1.flatten ::
                  wrapChunksAux w fuel
                    (buildLine w (c1 :: rest1)).2 true),
                line.length ≤ w := by
            intro c1 rest1 hm line hline
            have hlt : chunksMeasure (buildLine w (c1 :: rest1)).2 < fuel := by
              have := buildLine_measure_lt w c1 rest1
              omega
            by_cases hemp : (buildLine w (c1 :: rest1)).1.isEmpty = true
            · rw [if_pos hemp] at hline
              exact ih _ b hlt line hline
            · rw [if_neg hemp] at hline
              rcases List.mem_cons.mp hline with hline | hline
              · subst hline
                rw [flatten_length_eq_sumLen]
                exact buildLine_sumLen_le w _ hw
              · exact ih _ true hlt line hline
          by_cases hdrop : (b && chunkIsWS c0) = true
          · rw [if_pos hdrop]
            cases rest with
            | nil => intro line hline; simp at hline
            | cons c1 rest1 =>
                exact hstep c1 rest1
                  (by simp only [chunksMeasure_cons]; omega)
          · rw [if_neg hdrop]
            exact hstep c0 rest (le_refl _)

theorem wrapChunksAux_countNonWS (w : Nat) :
    ∀ (fuel : Nat) (chunks : List (List Char)) (b : Bool),
      chunksMeasure chunks < fuel →
      countNonWS (wrapChunksAux w fuel chunks b).flatten =
        countNonWS chunks.flatten := by
  intro fuel
  induction fuel with
  | zero => intro chunks b h; omega
  | succ fuel ih =>
      intro chunks b h
      cases chunks with
      | nil => rfl
      | cons c0 rest =>
          rw [wrapChunksAux_cons]
          have hstep : ∀ (c1 : List Char) (rest1 : List (List Char)),
              chunksMeasure (c1 :: rest1) ≤ chunksMeasure (c0 :: rest) →
              countNonWS (match c1 :: rest1 with
                | [] => ([] : List (List Char))
                | c1 :: rest1 =>
                    if (buildLine w (c1 :: rest1)).1.isEmpty then
                      wrapChunksAux w fuel (buildLine w (c1 :: rest1)).2 b
                    else (buildLine w (c1 :: rest1)).1.flatten ::
                      wrapChunksAux w fuel
                        (buildLine w (c1 :: rest1)).2 true).flatten =
                countNonWS (c1 :: rest1).flatten := by
            intro c1 rest1 hm
            dsimp only
            have hlt : chunksMeasure (buildLine w (c1 :: rest1)).2 < fuel := by
              have := buildLine_measure_lt w c1 rest1
              omega
            have hcons := buildLine_countNonWS w (c1 :: rest1)
            by_cases hemp : (buildLine w (c1 :: rest1)).1.isEmpty = true
            · rw [if_pos hemp]
              have hflat : (buildLine w (c1 :: rest1)).1.flatten = [] := by
                rw [List.isEmpty_iff] at hemp
                rw [hemp]
                rfl
              rw [hflat] at hcons
              have hz : countNonWS ([] : List Char) = 0 := rfl
              rw [ih _ b hlt]
              omega
            · rw [if_neg hemp]
              rw [countNonWS_flatten_cons, ih _ true hlt]
              omega
          by_cases hdrop : (b && chunkIsWS c0) = true
          · rw [if_pos hdrop]
            have hc0 : countNonWS c0 = 0 := by
              apply countNonWS_eq_zero_of_ws
              exact (Bool.and_eq_true _ _ |>.mp hdrop).2
            cases rest with
            | nil =>
                dsimp only
                rw [countNonWS_flatten_cons, hc0]
                have hz : countNonWS (([] : List (List Char))).flatten = 0 :=
                  rfl
                omega
            | cons c1 rest1 =>
                have hs := hstep c1 rest1
                  (by simp only [chunksMeasure_cons]; omega)
                rw [hs]
                have hx := countNonWS_flatten_cons c0 (c1 :: rest1)
                omega
          · rw [if_neg hdrop]
            exact hstep c0 rest (le_refl _)

/-! ## Claim C2: assembled statements -/

theorem pyWrap_line_le (w : Nat) (hw : 1 ≤ w) (text : String) :
    ∀ line ∈ pyWrap w text, line.length ≤ w := by
  intro line hline
  unfold pyWrap at hline
  obtain ⟨l, hl, rfl⟩ := List.mem_map.mp hline
  show l.length ≤ w
  exact wrapChunksAux_lines_le w hw _ _ false (by omega) l hl

theorem pyWrap_countNonWS (w : Nat) (text : String) :
    countNonWS ((pyWrap w text).map String.data).flatten =
      countNonWS text.data := by
  unfold pyWrap
  have h1 : ((wrapChunksAux w
      (chunksMeasure (pySplit (munge text.data)) + 1)
      (pySplit (munge text.data)) false).map
        (fun l => String.mk l)).map String.data =
      wrapChunksAux w (chunksMeasure (pySplit (munge text.data)) + 1)
        (pySplit (munge text.data)) false := by
    rw [List.map_map]
    have hid : (String.data ∘ fun l : List Char => String.mk l) = id := rfl
    rw [hid, List.map_id]
  rw [h1]
  rw [wrapChunksAux_countNonWS w _ _ false (by omega)]
  rw [pySplit_flatten, munge_countNonWS]

/-- Claim C2, counterexample: (a) the 31-character whitespace-free title of
31 letters `a` is a single word, yet it is wrapped onto two lines — the
word is split at the 30-character budget, refuting "no word is split across
two lines"; (b) the 31-character title `"hello"` followed by 26 spaces is
longer than the budget yet wraps to a single line, refuting "split into at
least 2 lines". -/
theorem wrapTitle_splits_words_cex :
    (String.mk (List.replicate 31 'a')).length = 31 ∧
    hasNoWhitespace (String.mk (List.replicate 31 'a')) = true ∧
    wrapTitle (String.mk (List.replicate 31 'a')) =
      [String.mk (List.replicate 30 'a'), "a"] ∧
    ("hello" ++ String.mk (List.replicate 26 ' ')).length = 31 ∧
    wrapTitle ("hello" ++ String.mk (List.replicate 26 ' ')) =
      ["hello"] := by
  refine ⟨by decide, by decide, by decide, by decide, by decide⟩

/-- Claim C2 (amended): every produced line is at most 30 characters, and
every title with more than 30 non-whitespace characters is split into at
least 2 lines. Words are not always preserved intact: a single word longer
than the 30-character budget is broken mid-word at the budget boundary (and
hyphenated words may be broken after a hyphen), and a title whose length
beyond 30 characters is only whitespace may stay on one line. -/
theorem wrapTitle_amended (title : String) :
    (∀ line ∈ wrapTitle title, line.length ≤ 30) ∧
    (30 < countNonWS title.data → 2 ≤ (wrapTitle title).length) := by
  constructor
  · exact pyWrap_line_le 30 (by omega) title
  · intro h30
    have hcons := pyWrap_countNonWS 30 title
    by_contra hlt
    push_neg at hlt
    interval_cases hlen : (wrapTitle title).length
    · have : (pyWrap 30 title).map String.data = [] := by
        rw [List.map_eq_nil_iff]
        rw [← List.length_eq_zero]
        exact hlen
      rw [this] at hcons
      have : countNonWS (([] : List (List Char))).flatten = 0 := rfl
      omega
    · obtain ⟨line, hline⟩ := List.length_eq_one.mp hlen
      have hmap : (pyWrap 30 title).map String.data = [line.data] := by
        rw [show pyWrap 30 title = wrapTitle title from rfl, hline]
        rfl
      rw [hmap] at hcons
      have hflat : countNonWS ([line.data] : List (List Char)).flatten =
          countNonWS line.data := by
        rw [countNonWS_flatten_cons]
        have : countNonWS (([] : List (List Char))).flatten = 0 := rfl
        omega
      have hle : countNonWS line.data ≤ 30 := by
        have h1 : line.length ≤ 30 := by
          apply pyWrap_line_le 30 (by omega) title
          rw [show pyWrap 30 title = wrapTitle title from rfl, hline]
          exact List.mem_singleton.mpr rfl
        have h2 := countNonWS_le_length line.data
        have h3 : line.length = line.data.length := rfl
        omega
      omega

/-- Claim C2, witness for the amended theorem: a 42-character title of
distinct words wraps to lines of at most 30 characters, at least 2 of
them. -/
theorem wrapTitle_amended_witness :
    30 < countNonWS ("hello world this is a somewhat long title").data ∧
    2 ≤ (wrapTitle ("hello world this is a somewhat long title")).length :=
  ⟨by decide,
    (wrapTitle_amended ("hello world this is a somewhat long title")).2
      (by decide)⟩

end QRMaker
